import Mathlib

/-!
Verification model of the SmartMRI-Planner pipeline.

Strings are modelled as lists of characters (`Str`).  Each definition below
is a direct translation of a function of the repository:

* `preprocessText`    — `PDFProcessor._preprocess_text` (pdf_processor.py:141)
* `extractChain`, `extractTextFromPdf` — `PDFProcessor.extract_text_from_pdf` (pdf_processor.py:30)
* `fetchUrlContent`   — `PDFProcessor.fetch_url_content` (pdf_processor.py:74)
* `processInput`      — `PDFProcessor.process_input` (pdf_processor.py:115)
* `extractSections`   — `PDFProcessor.extract_sections` (pdf_processor.py:168)
* `checkKidneyFunction` — `ProtocolRecommender._check_kidney_function` (src/protocol_recommender.py:54)
* `parseOrFallback`   — tail of `ProtocolRecommender.generate_recommendation` (src/protocol_recommender.py:208)
* `mergeFindings`     — merge loop of `NLPAnalyzer.analyze_multiple_papers` (src/nlp_analyzer.py:231)

External effects (network, the LLM, the PDF libraries, the filesystem) are
modelled as explicit oracle parameters; a Python exception raised by such an
effect is modelled as `Option.none` / `Except.error`.
-/

namespace SmartMRI

/-- Strings as lists of characters. -/
abbrev Str := List Char

/-- Characters treated as whitespace by Python's `str.strip()` and by `re`'s
`\s` class (ASCII control whitespace, space, and the Unicode space
characters). -/
def isPySpace (c : Char) : Bool :=
  (9 ≤ c.toNat && c.toNat ≤ 13) || c.toNat = 32 ||
  (28 ≤ c.toNat && c.toNat ≤ 31) ||
  c.toNat = 133 || c.toNat = 160 || c.toNat = 0x1680 ||
  (0x2000 ≤ c.toNat && c.toNat ≤ 0x200A) ||
  c.toNat = 0x2028 || c.toNat = 0x2029 || c.toNat = 0x202F ||
  c.toNat = 0x205F || c.toNat = 0x3000

/-- ASCII decimal digit, the `\d` class over the texts involved. -/
def isDigitCh (c : Char) : Bool := '0' ≤ c && c ≤ '9'

/-- The class `[^\x00-\x7F]` of `_preprocess_text`. -/
def isNonAscii (c : Char) : Bool := 128 ≤ c.toNat

def isAsciiAlpha (c : Char) : Bool :=
  ('a' ≤ c && c ≤ 'z') || ('A' ≤ c && c ≤ 'Z')

/-- ASCII lowering of one character.  Python's `str.lower()` is
Unicode-aware, but every comparison made by the repository is against a pure
ASCII literal, for which this agrees. -/
def asciiLowerCh (c : Char) : Char :=
  if 'A' ≤ c && c ≤ 'Z' then Char.ofNat (c.toNat + 32) else c

def asciiLower (s : Str) : Str := s.map asciiLowerCh

/-- `needle` occurs at the start of `hay`. -/
def startsWithCh : Str → Str → Bool
  | [], _ => true
  | _ :: _, [] => false
  | a :: as, b :: bs => a = b && startsWithCh as bs

/-- Python's `needle in hay` substring test. -/
def hasSubstr (needle : Str) : Str → Bool
  | [] => needle.isEmpty
  | c :: cs => startsWithCh needle (c :: cs) || hasSubstr needle cs

/-- Python's `hay.endswith(needle)`. -/
def endsWithCh (needle hay : Str) : Bool :=
  startsWithCh needle.reverse hay.reverse

/-! ### Normalizer: `_preprocess_text` (pdf_processor.py lines 141-166)

`re.sub(pat+ , rep, text)` for a single-character class `pat` replaces each
maximal run of class characters by the single character `rep`; the flag
records whether the previous character belonged to the current run. -/

def collapseRuns (p : Char → Bool) (rep : Char) : Bool → Str → Str
  | _, [] => []
  | inRun, c :: cs =>
    if p c then
      (if inRun then [] else [rep]) ++ collapseRuns p rep true cs
    else
      c :: collapseRuns p rep false cs

/-- `re.sub(r'<class>+', rep, l)`. -/
def subRuns (p : Char → Bool) (rep : Char) (l : Str) : Str :=
  collapseRuns p rep false l

/-- Attempt to match `\d+(?:-\d+)?\]` at the start of `l` (i.e. the part of a
citation marker after its opening bracket); on success return the remainder
after the closing bracket. -/
def citeTail (l : Str) : Option Str :=
  let ds := l.takeWhile isDigitCh
  let r1 := l.dropWhile isDigitCh
  if ds.isEmpty then none
  else
    match r1 with
    | ']' :: rest => some rest
    | '-' :: r2 =>
      let es := r2.takeWhile isDigitCh
      let r3 := r2.dropWhile isDigitCh
      if es.isEmpty then none
      else
        match r3 with
        | ']' :: rest => some rest
        | _ => none
    | _ => none

/-- `re.sub(r'\[\d+(?:-\d+)?\]', '', text)`: leftmost, non-overlapping
matches are removed.  The fuel argument (initially the length of the list)
keeps the recursion structural so that the definition evaluates by `decide`. -/
def removeCitationsGo : Nat → Str → Str
  | 0, l => l
  | _ + 1, [] => []
  | n + 1, c :: cs =>
    if c = '[' then
      match citeTail cs with
      | some rest => removeCitationsGo n rest
      | none => '[' :: removeCitationsGo n cs
    else
      c :: removeCitationsGo n cs

def removeCitations (l : Str) : Str := removeCitationsGo l.length l

/-- Remove trailing characters satisfying `p` (the right half of Python's
`str.strip()`). -/
def dropEndWhile (p : Char → Bool) : Str → Str
  | [] => []
  | c :: cs =>
    let r := dropEndWhile p cs
    if r.isEmpty && p c then [] else c :: r

/-- Python's `text.strip()`. -/
def pyStrip (l : Str) : Str := dropEndWhile isPySpace (l.dropWhile isPySpace)

/-- `PDFProcessor._preprocess_text`: the empty string is falsy and returned
unchanged; otherwise collapse newline runs, collapse whitespace runs to one
space, replace non-ASCII runs by one space, delete citation markers, and
strip. -/
def preprocessText (text : Str) : Str :=
  if text.isEmpty then []
  else
    let t1 := subRuns (fun c => c = '\n') '\n' text
    let t2 := subRuns isPySpace ' ' t1
    let t3 := subRuns isNonAscii ' ' t2
    let t4 := removeCitations t3
    pyStrip t4

/-! ### Clinical rule engine: `_check_kidney_function`
(src/protocol_recommender.py lines 54-91) -/

/-- `nlp_analyzer.MedicalEntity`. -/
structure MedicalEntity where
  entity_type : Str
  name : Str
  value : Option Str := none
  context : Option Str := none
deriving DecidableEq, Repr

/-- `nlp_analyzer.PatientInfo`. -/
structure PatientInfo where
  age : Option Int := none
  gender : Option Str := none
  conditions : List MedicalEntity := []
  measurements : List MedicalEntity := []
  medications : List MedicalEntity := []
  procedures : List MedicalEntity := []
  assessment_goal : Option Str := none
deriving DecidableEq, Repr

/-- The dictionary returned by `_check_kidney_function`.  Python floats are
modelled as exact rationals: every value compared here is parsed from a
decimal literal. -/
structure KidneyFunction where
  reduced_function : Bool
  egfr_value : Option ℚ
  contrast_contraindicated : Bool
deriving DecidableEq, Repr

def digitsToNat (ds : Str) : Nat :=
  ds.foldl (fun n c => 10 * n + (c.toNat - 48)) 0

/-- Value of the regex group `\d+(\.\d+)?` matched at the head of `s` (the
head of `s` is a digit): greedy integer part, then an optional fractional
part. -/
def numAt (s : Str) : ℚ :=
  let ip := s.takeWhile isDigitCh
  let r := s.dropWhile isDigitCh
  match r with
  | '.' :: r2 =>
    let fp := r2.takeWhile isDigitCh
    if fp.isEmpty then (digitsToNat ip : ℚ)
    else (digitsToNat ip : ℚ) + (digitsToNat fp : ℚ) / ((10 : ℚ) ^ fp.length)
  | _ => (digitsToNat ip : ℚ)

/-- `re.search(r'(\d+(\.\d+)?)', s)`: the leftmost decimal number in `s`,
`none` when `s` has no digit. -/
def findNumber : Str → Option ℚ
  | [] => none
  | c :: cs => if isDigitCh c then some (numAt (c :: cs)) else findNumber cs

/-- Python truthiness of the `Optional[str]` field `measurement.value`. -/
def truthyValue : Option Str → Bool
  | none => false
  | some s => !s.isEmpty

/-- One iteration of the measurement loop of `_check_kidney_function`.  The
code only ever sets the two flags to `True` (never back to `False`) and
overwrites `egfr_value` on every parseable eGFR measurement. -/
def kidneyStep (kf : KidneyFunction) (m : MedicalEntity) : KidneyFunction :=
  if hasSubstr "egfr".toList (asciiLower m.name) && truthyValue m.value then
    match findNumber (m.value.getD []) with
    | some v =>
      { egfr_value := some v
        reduced_function := kf.reduced_function || decide (v < 60)
        contrast_contraindicated := kf.contrast_contraindicated || decide (v < 30) }
    | none => kf
  else kf

/-- `ProtocolRecommender._check_kidney_function`. -/
def checkKidneyFunction (p : PatientInfo) : KidneyFunction :=
  p.measurements.foldl kidneyStep
    { reduced_function := false, egfr_value := none, contrast_contraindicated := false }

/-- The eGFR value contributed by one measurement: present exactly when the
lowered name contains "egfr", the value is truthy, and the value contains a
decimal number — the cases in which the loop body of
`_check_kidney_function` updates its state. -/
def measEgfr (m : MedicalEntity) : Option ℚ :=
  if hasSubstr "egfr".toList (asciiLower m.name) && truthyValue m.value then
    findNumber (m.value.getD [])
  else none

/-- The parseable eGFR values of a profile, in measurement order. -/
def egfrValues (p : PatientInfo) : List ℚ :=
  p.measurements.filterMap measEgfr

/-- A profile holding a single eGFR measurement with the given value text. -/
def egfrProfile (v : Str) : PatientInfo :=
  { measurements := [{ entity_type := "measurement".toList, name := "eGFR".toList, value := some v }] }

/-! ### Result merger: `analyze_multiple_papers`
(src/nlp_analyzer.py lines 215-247) -/

/-- A JSON-object entry of `mri_protocols` / `special_considerations`
(`Dict[str, Any]`), modelled as an association list of string pairs. -/
abbrev ProtoDict := List (Str × Str)

/-- `nlp_analyzer.ResearchFindings`; every field defaults to the empty
list. -/
structure ResearchFindings where
  mri_protocols : List ProtoDict := []
  field_strengths : List Str := []
  sequences : List Str := []
  conditions : List Str := []
  special_considerations : List ProtoDict := []
  key_findings : List Str := []
deriving DecidableEq, Repr

/-- One iteration of the `.extend` loop of `analyze_multiple_papers`. -/
def mergeStep (acc f : ResearchFindings) : ResearchFindings :=
  { mri_protocols := acc.mri_protocols ++ f.mri_protocols
    field_strengths := acc.field_strengths ++ f.field_strengths
    sequences := acc.sequences ++ f.sequences
    conditions := acc.conditions ++ f.conditions
    special_considerations := acc.special_considerations ++ f.special_considerations
    key_findings := acc.key_findings ++ f.key_findings }

/-- The merge of `analyze_multiple_papers` (also the merge of
`analyze_research_paper` over chunk results, lines 169-185): concatenate all
fields, then dedup `field_strengths`, `sequences`, `conditions` and
`key_findings` via `list(set(...))`.  Python's `list(set(...))` returns the
distinct elements in unspecified order; it is modelled by `List.dedup`, and
every theorem about the deduplicated fields compares sets. -/
def mergeFindings (all_findings : List ResearchFindings) : ResearchFindings :=
  let m := all_findings.foldl mergeStep {}
  { m with
    field_strengths := m.field_strengths.dedup
    sequences := m.sequences.dedup
    conditions := m.conditions.dedup
    key_findings := m.key_findings.dedup }

/-! ### Source resolution: `process_input` (pdf_processor.py lines 115-139) -/

/-- Characters allowed after the first scheme character by
`urllib.parse` (`scheme_chars`). -/
def isSchemeChar (c : Char) : Bool :=
  isAsciiAlpha c || isDigitCh c || c = '+' || c = '-' || c = '.'

/-- The scheme step of `urllib.parse.urlsplit`: when the input has a colon at
a positive position, the part before it starts with an ASCII letter, and its
remaining characters are scheme characters, split off the lowered scheme. -/
def splitScheme (url : Str) : Str × Str :=
  let pre := url.takeWhile (fun c => c ≠ ':')
  if pre.length = url.length then ([], url)
  else
    match pre with
    | [] => ([], url)
    | c0 :: rest =>
      if isAsciiAlpha c0 && rest.all isSchemeChar then
        (asciiLower (c0 :: rest), url.drop (pre.length + 1))
      else ([], url)

/-- The netloc step of `urllib.parse.urlsplit`: after the scheme, a leading
`//` introduces the netloc, which runs to the next `/`, `?` or `#`. -/
def splitNetloc (url : Str) : Str :=
  match url with
  | '/' :: '/' :: rest => rest.takeWhile (fun c => c ≠ '/' && c ≠ '?' && c ≠ '#')
  | _ => []

/-- `urlparse(input_source)` restricted to the two components
`process_input` inspects. -/
def urlSchemeNetloc (url : Str) : Str × Str :=
  let (sch, rest) := splitScheme url
  (sch, splitNetloc rest)

/-- The branch `process_input` dispatches to. -/
inductive InputRoute where
  /-- `fetch_url_content(input_source)` -/
  | urlFetch
  /-- `extract_text_from_pdf(input_source)` -/
  | pdfExtract
  /-- read the file and `_preprocess_text` it -/
  | textRead
deriving DecidableEq, Repr

/-- `PDFProcessor.process_input`.  The filesystem is the oracle `isfile`
(`os.path.isfile`).  The final `else` branch raises
`ValueError(f"Input source not found or not supported: {input_source}")`,
modelled as `Except.error` carrying the message. -/
def processInput (isfile : Str → Bool) (src : Str) : Except Str InputRoute :=
  let (sch, nl) := urlSchemeNetloc src
  if !sch.isEmpty && !nl.isEmpty then .ok .urlFetch
  else if isfile src then
    if endsWithCh ".pdf".toList (asciiLower src) then .ok .pdfExtract
    else .ok .textRead
  else .error ("Input source not found or not supported: ".toList ++ src)

/-! ### Extraction fallback chain: `extract_text_from_pdf`
(pdf_processor.py lines 30-72)

The three extraction methods are oracles: `t1` is the value of `text` after
the PyPDF2 `try` block (a partial accumulation when an exception was
raised mid-loop, possibly empty); `t2` likewise for the pdfplumber block
(the code resets `text` to the empty string inside that `try` before
accumulating); `m3` is the pdftotext outcome, `none` when the subprocess or
the file read raised, in which case `text` keeps its previous value. -/

def extractChain (t1 t2 : Str) (m3 : Option Str) : Str :=
  let text := t1
  let text := if (pyStrip text).length < 100 then t2 else text
  let text := if (pyStrip text).length < 100 then m3.getD text else text
  text

/-- `PDFProcessor.extract_text_from_pdf`: the chain result is preprocessed
before being returned. -/
def extractTextFromPdf (t1 t2 : Str) (m3 : Option Str) : Str :=
  preprocessText (extractChain t1 t2 m3)

/-! ### Remote fetch: `fetch_url_content` (pdf_processor.py lines 74-113) -/

/-- Outcome of `requests.get` + `raise_for_status`: `statusOk = false` means
`raise_for_status` raised. -/
structure HttpResponse where
  statusOk : Bool
  contentType : Str
  bodyText : Str
deriving DecidableEq, Repr

/-- Oracles for the effectful steps of `fetch_url_content`.  `response = none`
models `requests.get` raising; `pdfResult = none` models an exception while
saving the payload or inside `extract_text_from_pdf` (whose own return value
is `pdfResult` otherwise); `htmlResult` is the text produced by
BeautifulSoup from `response.text`, `none` when that raised. -/
structure FetchEnv where
  response : Option HttpResponse
  pdfResult : Option Str
  htmlResult : Option Str

/-- `PDFProcessor.fetch_url_content`: the whole body is wrapped in
`try ... except Exception: return ""`, so every failure path yields the
empty string. -/
def fetchUrlContent (env : FetchEnv) (url : Str) : Str :=
  match env.response with
  | none => []
  | some r =>
    if !r.statusOk then []
    else if hasSubstr "application/pdf".toList (asciiLower r.contentType)
            || endsWithCh ".pdf".toList (asciiLower url) then
      match env.pdfResult with
      | some t => t
      | none => []
    else
      match env.htmlResult with
      | some t => preprocessText t
      | none => []

/-! ### Recommendation synthesis fallback: `generate_recommendation`
(src/protocol_recommender.py lines 208-223) -/

/-- `protocol_recommender.ProtocolRecommendation`. -/
structure ProtocolRecommendation where
  sequences : List Str := []
  field_strength : Str
  contrast_agent : Option Str := none
  special_considerations : List Str := []
  rationale : Str
  alternative_options : List ProtoDict := []
  contraindications : List Str := []
deriving DecidableEq, Repr

/-- The default recommendation built in the `except` branch of
`generate_recommendation`. -/
def fallbackRecommendation : ProtocolRecommendation :=
  { sequences := ["T1-weighted".toList, "T2-weighted".toList]
    field_strength := "1.5T".toList
    contrast_agent := none
    special_considerations := ["Standard protocol due to parsing error".toList]
    rationale := "Error occurred during recommendation generation. Using standard protocol as fallback.".toList
    alternative_options := []
    contraindications := [] }

/-- The final parse step of `generate_recommendation`: `parser.parse(result)`
inside `try`, with the `except` branch returning `fallbackRecommendation`.
The external parser is the oracle `parse`; an exception is `Except.error`. -/
def parseOrFallback (parse : Str → Except Str ProtocolRecommendation)
    (result : Str) : ProtocolRecommendation :=
  match parse result with
  | .ok r => r
  | .error _ => fallbackRecommendation

/-! ### Section segmentation: `extract_sections` (pdf_processor.py lines 168-211)

The pattern is `(?i)^(abstract|introduction|background|methods?|methodology|
results?|discussion|conclusion|references|acknowledgements?)[\s:]*$` with
`re.MULTILINE`, scanned by `finditer`.  Alternatives are tried left to
right and a greedy `s?` tries the long form first, so the candidate words
below are listed in exactly the engine's try order.  Case-insensitivity is
ASCII (every vocabulary word is ASCII). -/

/-- Heading words in regex try order. -/
def headingWords : List Str :=
  ["abstract".toList, "introduction".toList, "background".toList,
   "methods".toList, "method".toList, "methodology".toList,
   "results".toList, "result".toList, "discussion".toList,
   "conclusion".toList, "references".toList,
   "acknowledgements".toList, "acknowledgement".toList]

/-- The character class `[\s:]`. -/
def isHeadTailCh (c : Char) : Bool := isPySpace c || c = ':'

/-- Case-insensitive `startsWithCh` against a lowercase pattern word. -/
def startsWithCI (w s : Str) : Bool := startsWithCh w (asciiLower s)

/-- Index of the last newline of `l`, if any. -/
def lastNlIdx (l : Str) : Option Nat :=
  let tailNoNl := l.reverse.takeWhile (fun c => c ≠ '\n')
  if tailNoNl.length = l.length then none
  else some (l.length - tailNoNl.length - 1)

/-- Match the tail `[\s:]*$` (multiline `$`) against `rest`, the text
following a candidate heading word.  The greedy star first consumes the
maximal `[\s:]` run; `$` holds at the end of the text or before a newline,
so the match consumes the whole run when the run reaches the end of the
text, and otherwise backs off to the last newline inside the run (which is
left unconsumed).  Returns the number of consumed characters. -/
def headTailLen (rest : Str) : Option Nat :=
  let run := rest.takeWhile isHeadTailCh
  if run.length = rest.length then some run.length
  else
    match lastNlIdx run with
    | some k => some k
    | none => none

/-- Try the candidate words in order at the current position; on success
return the matched word as written in the text (the content of group 1)
together with the total match length. -/
def tryWords : List Str → Str → Option (Str × Nat)
  | [], _ => none
  | w :: ws, s =>
    if startsWithCI w s then
      match headTailLen (s.drop w.length) with
      | some k => some (s.take w.length, w.length + k)
      | none => tryWords ws s
    else tryWords ws s

/-- Matches of the heading pattern starting at the current position (which
must be a line start for `^`). -/
def headingMatchAt (s : Str) : Option (Str × Nat) := tryWords headingWords s

/-- `re.finditer` over the text: scan position by position; `^` holds at
position 0 and after a newline; after a match, scanning resumes at its end
(matches never overlap; every match is nonempty).  Arguments: fuel (the
length of the remaining text), whether the position is a line start, the
absolute position, and the remaining text.  Produces
`(start, lowered group 1, match length)` triples. -/
def scanHeadings : Nat → Bool → Nat → Str → List (Nat × Str × Nat)
  | 0, _, _, _ => []
  | _ + 1, _, _, [] => []
  | n + 1, lineStart, pos, c :: cs =>
    if lineStart then
      match headingMatchAt (c :: cs) with
      | some (w, len) =>
        (pos, asciiLower w, len) ::
          scanHeadings n (decide (((c :: cs).take len).getLast? = some '\n'))
            (pos + len) ((c :: cs).drop len)
      | none => scanHeadings n (c = '\n') (pos + 1) cs
    else scanHeadings n (c = '\n') (pos + 1) cs

def findHeadingMatches (text : Str) : List (Nat × Str × Nat) :=
  scanHeadings text.length true 0 text

/-- Python `dict` insertion: overwrite in place when the key exists,
otherwise append. -/
def dictInsert (k v : Str) : List (Str × Str) → List (Str × Str)
  | [] => [(k, v)]
  | (k0, v0) :: rest =>
    if k0 = k then (k0, v) :: rest else (k0, v0) :: dictInsert k v rest

/-- The `for i, match in enumerate(matches)` loop of `extract_sections`,
rendered as structural recursion on the match list: the loop reads the
current match and — unless it is the last one (`i == len(matches) - 1`) —
the next match `matches[i + 1]`, so the recursion carries the current match
and the remaining ones.  `text[a:b]` is `(text.take b).drop a`, and the
content is stripped as in the source. -/
def sectionsLoop (text : Str) : List (Nat × Str × Nat) → List (Str × Str) → List (Str × Str)
  | [], d => d
  | (st, nm, ln) :: rest, d =>
    let content :=
      match rest with
      | [] => pyStrip (text.drop (st + ln))
      | (st2, _, _) :: _ => pyStrip ((text.take st2).drop (st + ln))
    sectionsLoop text rest (dictInsert nm content d)

/-- `PDFProcessor.extract_sections`. -/
def extractSections (text : Str) : List (Str × Str) :=
  let sections := sectionsLoop text (findHeadingMatches text) []
  if sections.isEmpty then [("full_text".toList, text)] else sections

/-- Stripped slice of `text` from position `a` up to position `e` (or to the
end of the text when `e = none`). -/
def sliceTo (text : Str) (a : Nat) : Option Nat → Str
  | some e => pyStrip ((text.take e).drop a)
  | none => pyStrip (text.drop a)

/-- The section list exactly as the claim describes it: each heading match
contributes its lowered name mapped to the text running from the end of its
match to the start of the next match, the last running to the end of the
text; content before the first heading appears nowhere. -/
def specSections (text : Str) : List (Nat × Str × Nat) → List (Str × Str)
  | [] => []
  | (st, nm, ln) :: rest =>
    (nm, sliceTo text (st + ln) (rest.head?.map (fun m => m.1))) :: specSections text rest

/-- The first two passes of `_preprocess_text` followed by the final strip:
on ASCII, bracket-free input the remaining passes are no-ops and
preprocessing reduces to this. -/
def wsNormalized (x : Str) : Str :=
  pyStrip (subRuns isPySpace ' ' (subRuns (fun c => c = '\n') '\n' x))

/-- Per-field set equality of two findings records: Python's `list(set(x))`
fixes the set of elements but not their order, so all merge comparisons are
per-field set comparisons. -/
def sameFieldSets (f g : ResearchFindings) : Prop :=
  f.mri_protocols.toFinset = g.mri_protocols.toFinset
  ∧ f.field_strengths.toFinset = g.field_strengths.toFinset
  ∧ f.sequences.toFinset = g.sequences.toFinset
  ∧ f.conditions.toFinset = g.conditions.toFinset
  ∧ f.special_considerations.toFinset = g.special_considerations.toFinset
  ∧ f.key_findings.toFinset = g.key_findings.toFinset

/-! ## Normal-form lemmas for the normalizer -/

/-- Whitespace characters of `l` are all plain spaces. -/
def allWsSpace (l : Str) : Prop := ∀ c ∈ l, isPySpace c = true → c = ' '

/-- No two adjacent whitespace characters. -/
def noWsPair : Str → Bool
  | a :: b :: rest => (!(isPySpace a && isPySpace b)) && noWsPair (b :: rest)
  | _ => true

theorem noWsPair_tail {a : Char} {l : Str} (h : noWsPair (a :: l) = true) :
    noWsPair l = true := by
  cases l with
  | nil => rfl
  | cons b rest =>
    simp only [noWsPair, Bool.and_eq_true] at h
    exact h.2

theorem noWsPair_cons_of_head {a : Char} {l : Str}
    (hl : noWsPair l = true)
    (hh : ∀ c, l.head? = some c → (isPySpace a && isPySpace c) = false) :
    noWsPair (a :: l) = true := by
  cases l with
  | nil => rfl
  | cons b rest =>
    simp only [noWsPair, Bool.and_eq_true, Bool.not_eq_true']
    exact ⟨hh b rfl, hl⟩

theorem mem_collapseRuns {p : Char → Bool} {rep c : Char} :
    ∀ {b : Bool} {l : Str}, c ∈ collapseRuns p rep b l →
      c = rep ∨ (c ∈ l ∧ p c = false) := by
  intro b l
  induction l generalizing b with
  | nil => simp [collapseRuns]
  | cons a as ih =>
    intro h
    by_cases hp : p a = true
    · simp only [collapseRuns, hp, if_pos] at h
      rcases List.mem_append.mp h with h1 | h2
      · cases b with
        | true => simp at h1
        | false =>
          left
          simpa using h1
      · rcases ih h2 with h | ⟨hm, hpc⟩
        · exact Or.inl h
        · exact Or.inr ⟨List.mem_cons_of_mem _ hm, hpc⟩
    · simp only [collapseRuns, hp, if_neg, Bool.not_eq_true] at h
      rcases List.mem_cons.mp h with rfl | h2
      · exact Or.inr ⟨List.mem_cons_self _ _, Bool.not_eq_true _ ▸ hp⟩
      · rcases ih h2 with h | ⟨hm, hpc⟩
        · exact Or.inl h
        · exact Or.inr ⟨List.mem_cons_of_mem _ hm, hpc⟩

theorem mem_subRuns {p : Char → Bool} {rep c : Char} {l : Str}
    (h : c ∈ subRuns p rep l) : c = rep ∨ (c ∈ l ∧ p c = false) :=
  mem_collapseRuns h

theorem collapseRuns_eq_self {p : Char → Bool} {rep : Char} :
    ∀ {b : Bool} {l : Str}, (∀ c ∈ l, p c = false) → collapseRuns p rep b l = l := by
  intro b l
  induction l generalizing b with
  | nil => simp [collapseRuns]
  | cons a as ih =>
    intro h
    have ha : p a = false := h a (List.mem_cons_self _ _)
    simp only [collapseRuns, ha, Bool.false_eq_true, if_neg, not_false_iff]
    exact congrArg (a :: ·) (ih fun c hc => h c (List.mem_cons_of_mem _ hc))

theorem subRuns_eq_self {p : Char → Bool} {rep : Char} {l : Str}
    (h : ∀ c ∈ l, p c = false) : subRuns p rep l = l :=
  collapseRuns_eq_self h

/-- Structure of the whitespace-collapse output: whitespace characters are
single spaces, never adjacent, and after a run (`b = true`) the output does
not begin with whitespace. -/
theorem collapseRuns_ws_props :
    ∀ (l : Str) (b : Bool),
      allWsSpace (collapseRuns isPySpace ' ' b l)
      ∧ noWsPair (collapseRuns isPySpace ' ' b l) = true
      ∧ (b = true → ∀ c, (collapseRuns isPySpace ' ' b l).head? = some c →
          isPySpace c = false) := by
  intro l
  induction l with
  | nil =>
    intro b
    refine ⟨?_, rfl, ?_⟩
    · intro c hc; simp [collapseRuns] at hc
    · intro _ c hc; simp [collapseRuns] at hc
  | cons a as ih =>
    intro b
    by_cases hp : isPySpace a = true
    · cases b with
      | true =>
        simpa [collapseRuns, hp] using ih true
      | false =>
        have iht := ih true
        simp only [collapseRuns, hp, if_pos, if_neg, List.singleton_append]
        refine ⟨?_, ?_, ?_⟩
        · intro c hc _
          rcases List.mem_cons.mp hc with rfl | hm
          · rfl
          · exact iht.1 c hm (by assumption)
        · refine noWsPair_cons_of_head iht.2.1 ?_
          intro c hc
          have := iht.2.2 rfl c hc
          simp [this]
        · intro hfalse; cases hfalse
    · have ihf := ih false
      simp only [collapseRuns, hp, Bool.false_eq_true, if_neg, not_false_iff]
      refine ⟨?_, ?_, ?_⟩
      · intro c hc hws
        rcases List.mem_cons.mp hc with rfl | hm
        · exact absurd hws (by simp [hp])
        · exact ihf.1 c hm hws
      · refine noWsPair_cons_of_head ihf.2.1 ?_
        intro c _
        simp [hp]
      · intro _ c hc
        simp only [List.head?_cons, Option.some.injEq] at hc
        subst hc
        simpa using hp

/-- The whitespace collapse is the identity on strings already in normal
form. -/
theorem collapseRuns_ws_id :
    ∀ (l : Str) (b : Bool), allWsSpace l → noWsPair l = true →
      (b = true → ∀ c, l.head? = some c → isPySpace c = false) →
      collapseRuns isPySpace ' ' b l = l := by
  intro l
  induction l with
  | nil => intro b _ _ _; rfl
  | cons a as ih =>
    intro b h1 h2 hb
    by_cases hp : isPySpace a = true
    · have hb' : b = false := by
        cases b with
        | false => rfl
        | true => exact absurd hp (by simp [hb rfl a rfl])
      subst hb'
      have ha : a = ' ' := h1 a (List.mem_cons_self _ _) hp
      simp only [collapseRuns, hp, if_pos, if_neg, List.singleton_append]
      have tail_eq : collapseRuns isPySpace ' ' true as = as := by
        refine ih true (fun c hc hw => h1 c (List.mem_cons_of_mem _ hc) hw)
          (noWsPair_tail h2) ?_
        intro _ c hc
        cases as with
        | nil => simp at hc
        | cons b2 rest =>
          simp only [List.head?_cons, Option.some.injEq] at hc
          subst hc
          have := h2
          simp only [noWsPair, hp, Bool.true_and, Bool.and_eq_true,
            Bool.not_eq_true'] at this
          exact this.1
      rw [tail_eq, ha]
      simp
    · simp only [collapseRuns, hp, Bool.false_eq_true, if_neg, not_false_iff]
      refine congrArg (a :: ·) (ih false
        (fun c hc hw => h1 c (List.mem_cons_of_mem _ hc) hw)
        (noWsPair_tail h2) ?_)
      intro hfalse; cases hfalse

theorem mem_dropEndWhile {p : Char → Bool} {c : Char} :
    ∀ {l : Str}, c ∈ dropEndWhile p l → c ∈ l := by
  intro l
  induction l with
  | nil => simp [dropEndWhile]
  | cons a as ih =>
    intro h
    simp only [dropEndWhile] at h
    by_cases hcond : (dropEndWhile p as).isEmpty && p a
    · simp [hcond] at h
    · simp only [hcond, Bool.false_eq_true, if_neg, not_false_iff] at h
      rcases List.mem_cons.mp h with rfl | hm
      · exact List.mem_cons_self _ _
      · exact List.mem_cons_of_mem _ (ih hm)

theorem dropEndWhile_getLast {p : Char → Bool} :
    ∀ {l : Str} {c : Char}, (dropEndWhile p l).getLast? = some c → p c = false := by
  intro l
  induction l with
  | nil => intro c h; simp [dropEndWhile] at h
  | cons a as ih =>
    intro c h
    simp only [dropEndWhile] at h
    by_cases hcond : (dropEndWhile p as).isEmpty && p a
    · simp [hcond] at h
    · simp only [hcond, Bool.false_eq_true, if_neg, not_false_iff] at h
      rcases he : dropEndWhile p as with _ | ⟨b, bs⟩
      · rw [he] at h
        simp only [List.getLast?_singleton, Option.some.injEq] at h
        subst h
        rw [he] at hcond
        simpa using hcond
      · rw [he] at h
        rw [List.getLast?_cons_cons] at h
        exact ih (he ▸ h)

theorem dropEndWhile_eq_self {p : Char → Bool} :
    ∀ {l : Str}, (∀ c, l.getLast? = some c → p c = false) → dropEndWhile p l = l := by
  intro l
  induction l with
  | nil => intro _; rfl
  | cons a as ih =>
    intro h
    cases as with
    | nil =>
      have := h a rfl
      simp [dropEndWhile, this]
    | cons b bs =>
      have tail_eq : dropEndWhile p (b :: bs) = b :: bs := by
        refine ih ?_
        intro c hc
        exact h c (by rw [List.getLast?_cons_cons]; exact hc)
      have step : dropEndWhile p (a :: b :: bs) =
          if (dropEndWhile p (b :: bs)).isEmpty && p a then []
          else a :: dropEndWhile p (b :: bs) := rfl
      rw [step, tail_eq]
      simp

theorem dropEndWhile_head {p : Char → Bool} :
    ∀ {l : Str} {c : Char}, (dropEndWhile p l).head? = some c → l.head? = some c := by
  intro l c h
  cases l with
  | nil => simp [dropEndWhile] at h
  | cons a as =>
    simp only [dropEndWhile] at h
    by_cases hcond : (dropEndWhile p as).isEmpty && p a
    · simp [hcond] at h
    · simp only [hcond, Bool.false_eq_true, if_neg, not_false_iff,
        List.head?_cons] at h ⊢
      exact h

theorem noWsPair_dropEndWhile {p : Char → Bool} :
    ∀ {l : Str}, noWsPair l = true → noWsPair (dropEndWhile p l) = true := by
  intro l
  induction l with
  | nil => intro _; rfl
  | cons a as ih =>
    intro h
    simp only [dropEndWhile]
    by_cases hcond : (dropEndWhile p as).isEmpty && p a
    · rw [if_pos hcond]
      rfl
    · simp only [hcond, Bool.false_eq_true, if_neg, not_false_iff]
      refine noWsPair_cons_of_head (ih (noWsPair_tail h)) ?_
      intro c hc
      have hc' := dropEndWhile_head hc
      cases as with
      | nil => simp at hc'
      | cons b bs =>
        simp only [List.head?_cons, Option.some.injEq] at hc'
        subst hc'
        simp only [noWsPair, Bool.and_eq_true, Bool.not_eq_true'] at h
        exact h.1

theorem dropWhile_head_not {p : Char → Bool} :
    ∀ {l : Str} {c : Char}, (l.dropWhile p).head? = some c → p c = false := by
  intro l
  induction l with
  | nil => intro c h; simp [List.dropWhile] at h
  | cons a as ih =>
    intro c h
    by_cases hp : p a = true
    · rw [List.dropWhile_cons_of_pos hp] at h
      exact ih h
    · rw [List.dropWhile_cons_of_neg (by simpa using hp)] at h
      simp only [List.head?_cons, Option.some.injEq] at h
      subst h
      simpa using hp

theorem dropWhile_eq_self_of_head {p : Char → Bool} {l : Str}
    (h : ∀ c, l.head? = some c → p c = false) : l.dropWhile p = l := by
  cases l with
  | nil => rfl
  | cons a as => exact List.dropWhile_cons_of_neg (by simp [h a rfl])

theorem noWsPair_dropWhile {p : Char → Bool} :
    ∀ {l : Str}, noWsPair l = true → noWsPair (l.dropWhile p) = true := by
  intro l
  induction l with
  | nil => intro _; rfl
  | cons a as ih =>
    intro h
    by_cases hp : p a = true
    · rw [List.dropWhile_cons_of_pos hp]
      exact ih (noWsPair_tail h)
    · rw [List.dropWhile_cons_of_neg (by simpa using hp)]
      exact h

theorem mem_pyStrip {c : Char} {l : Str} (h : c ∈ pyStrip l) : c ∈ l := by
  have h1 := mem_dropEndWhile h
  exact List.dropWhile_subset _ h1

theorem pyStrip_head_not {l : Str} {c : Char}
    (h : (pyStrip l).head? = some c) : isPySpace c = false :=
  dropWhile_head_not (dropEndWhile_head h)

theorem pyStrip_getLast_not {l : Str} {c : Char}
    (h : (pyStrip l).getLast? = some c) : isPySpace c = false :=
  dropEndWhile_getLast h

theorem noWsPair_pyStrip {l : Str} (h : noWsPair l = true) :
    noWsPair (pyStrip l) = true :=
  noWsPair_dropEndWhile (noWsPair_dropWhile h)

theorem pyStrip_eq_self {l : Str}
    (hh : ∀ c, l.head? = some c → isPySpace c = false)
    (hl : ∀ c, l.getLast? = some c → isPySpace c = false) : pyStrip l = l := by
  unfold pyStrip
  rw [dropWhile_eq_self_of_head hh]
  exact dropEndWhile_eq_self hl

theorem removeCitationsGo_eq_self :
    ∀ (n : Nat) (l : Str), '[' ∉ l → removeCitationsGo n l = l := by
  intro n
  induction n with
  | zero => intro l _; rfl
  | succ m ih =>
    intro l h
    cases l with
    | nil => rfl
    | cons a as =>
      have ha : a ≠ '[' := fun hEq => h (hEq ▸ List.mem_cons_self _ _)
      simp only [removeCitationsGo, ha, if_neg, not_false_iff]
      exact congrArg (a :: ·) (ih as fun hm => h (List.mem_cons_of_mem _ hm))

theorem removeCitations_eq_self {l : Str} (h : '[' ∉ l) :
    removeCitations l = l :=
  removeCitationsGo_eq_self _ _ h

/-- Characters of the whitespace-collapsed text are spaces or non-whitespace
characters of the input. -/
theorem mem_wsCollapsed {x : Str} {c : Char}
    (hc : c ∈ subRuns isPySpace ' ' (subRuns (fun c => c = '\n') '\n' x)) :
    c = ' ' ∨ (c ∈ x ∧ isPySpace c = false) := by
  rcases mem_subRuns hc with rfl | ⟨hm, hw⟩
  · exact Or.inl rfl
  · rcases mem_subRuns hm with rfl | ⟨hmx, _⟩
    · exact absurd hw (by decide)
    · exact Or.inr ⟨hmx, hw⟩

/-- On ASCII input without an opening bracket, the non-ASCII pass and the
citation pass of `_preprocess_text` are no-ops, so preprocessing reduces to
whitespace collapsing followed by stripping. -/
theorem preprocess_eq_strip (x : Str)
    (hA : ∀ c ∈ x, isNonAscii c = false) (hB : '[' ∉ x) (hx : x ≠ []) :
    preprocessText x = wsNormalized x := by
  have hT2ascii : ∀ c ∈ subRuns isPySpace ' ' (subRuns (fun c => c = '\n') '\n' x),
      isNonAscii c = false := by
    intro c hc
    rcases mem_wsCollapsed hc with rfl | ⟨hm, _⟩
    · decide
    · exact hA c hm
  have hT2nobr : '[' ∉ subRuns isPySpace ' ' (subRuns (fun c => c = '\n') '\n' x) := by
    intro hc
    rcases mem_wsCollapsed hc with h | ⟨hm, _⟩
    · exact absurd h (by decide)
    · exact hB hm
  unfold preprocessText
  rw [if_neg (by simpa using hx)]
  show pyStrip (removeCitations (subRuns isNonAscii ' '
      (subRuns isPySpace ' ' (subRuns (fun c => c = '\n') '\n' x)))) = _
  rw [subRuns_eq_self hT2ascii, removeCitations_eq_self hT2nobr]
  rfl

/-- C3 (counterexample): the text normalization transform is not idempotent.
Citation removal runs after whitespace collapsing, so deleting a marker can
leave two adjacent spaces that only a second pass collapses:
`normalize("a [1] b") = "a  b"` while `normalize("a  b") = "a b"`. -/
theorem preprocess_not_idempotent_cex :
    preprocessText (preprocessText "a [1] b".toList) ≠ preprocessText "a [1] b".toList
  ∧ preprocessText "a [1] b".toList = "a  b".toList
  ∧ preprocessText "a  b".toList = "a b".toList := by
  exact ⟨by decide, by decide, by decide⟩

/-- C3 (amended): the normalizer is idempotent on every input made of ASCII
characters containing no opening bracket (in particular no citation marker);
on such inputs `normalize(normalize(x)) = normalize(x)`.  The counterexample
`preprocess_not_idempotent_cex` shows both restrictions are forced: citation
markers and non-ASCII runs can each create adjacent spaces on the first
pass. -/
theorem preprocess_idempotent_ascii (x : Str)
    (hA : ∀ c ∈ x, isNonAscii c = false) (hB : '[' ∉ x) :
    preprocessText (preprocessText x) = preprocessText x := by
  by_cases hx : x = []
  · subst hx; rfl
  · rw [preprocess_eq_strip x hA hB hx]
    have props := collapseRuns_ws_props (subRuns (fun c => c = '\n') '\n' x) false
    have hyA : ∀ c ∈ wsNormalized x, isNonAscii c = false := by
      intro c hc
      rcases mem_wsCollapsed (mem_pyStrip hc) with rfl | ⟨hm, _⟩
      · decide
      · exact hA c hm
    have hyBr : '[' ∉ wsNormalized x := by
      intro hc
      rcases mem_wsCollapsed (mem_pyStrip hc) with h | ⟨hm, _⟩
      · exact absurd h (by decide)
      · exact hB hm
    by_cases hy : wsNormalized x = []
    · rw [hy]; rfl
    · rw [preprocess_eq_strip _ hyA hyBr hy]
      have hyNl : ∀ c ∈ wsNormalized x, decide (c = '\n') = false := by
        intro c hc
        rcases mem_wsCollapsed (mem_pyStrip hc) with rfl | ⟨_, hw⟩
        · decide
        · simp only [decide_eq_false_iff_not]
          intro hEq
          subst hEq
          exact absurd hw (by decide)
      show pyStrip (subRuns isPySpace ' '
        (subRuns (fun c => c = '\n') '\n' (wsNormalized x))) = wsNormalized x
      rw [subRuns_eq_self hyNl]
      have hWsAll : allWsSpace (wsNormalized x) := by
        intro c hc hw
        exact props.1 c (mem_pyStrip hc) hw
      have hNoPair : noWsPair (wsNormalized x) = true :=
        noWsPair_pyStrip props.2.1
      have hId : subRuns isPySpace ' ' (wsNormalized x) = wsNormalized x :=
        collapseRuns_ws_id _ false hWsAll hNoPair (by intro h; simp at h)
      rw [hId]
      exact pyStrip_eq_self (fun c hc => pyStrip_head_not hc)
        (fun c hc => pyStrip_getLast_not hc)

/-! ## Clinical rule engine lemmas -/

/-- The loop body of `_check_kidney_function` in terms of `measEgfr`. -/
theorem kidneyStep_eq (kf : KidneyFunction) (m : MedicalEntity) :
    kidneyStep kf m =
      match measEgfr m with
      | some v =>
        { egfr_value := some v
          reduced_function := kf.reduced_function || decide (v < 60)
          contrast_contraindicated := kf.contrast_contraindicated || decide (v < 30) }
      | none => kf := by
  unfold kidneyStep measEgfr
  by_cases h : (hasSubstr "egfr".toList (asciiLower m.name) && truthyValue m.value) = true
  · rw [if_pos h, if_pos h]
  · rw [if_neg h, if_neg h]

/-- Closed form of the measurement loop: `egfr_value` is overwritten by every
parseable eGFR measurement (the last one wins), while the two flags are
only ever raised, so each holds exactly when SOME parseable value is below
its threshold. -/
theorem foldl_kidneyStep (ms : List MedicalEntity) (kf : KidneyFunction) :
    ms.foldl kidneyStep kf =
      { reduced_function :=
          kf.reduced_function || (ms.filterMap measEgfr).any (fun v => decide (v < 60))
        egfr_value := ((ms.filterMap measEgfr).getLast?).or kf.egfr_value
        contrast_contraindicated :=
          kf.contrast_contraindicated || (ms.filterMap measEgfr).any (fun v => decide (v < 30)) } := by
  induction ms generalizing kf with
  | nil => simp
  | cons m rest ih =>
    rw [List.foldl_cons, ih, kidneyStep_eq]
    cases h : measEgfr m with
    | none => simp [List.filterMap_cons, h]
    | some v =>
      simp only [List.filterMap_cons, h]
      cases hrest : rest.filterMap measEgfr with
      | nil => simp
      | cons w ws =>
        obtain ⟨z, hz⟩ : ∃ z, (w :: ws).getLast? = some z := by
          cases hlast : (w :: ws).getLast? with
          | none => exact absurd hlast (by simp)
          | some z => exact ⟨z, rfl⟩
        simp [List.getLast?_cons_cons, hz, Bool.or_assoc, List.any_cons]

theorem list_any_const {l : List ℚ} {v : ℚ} (hne : l ≠ [])
    (hall : ∀ w ∈ l, w = v) (f : ℚ → Bool) : l.any f = f v := by
  induction l with
  | nil => exact absurd rfl hne
  | cons a rest ih =>
    have ha : a = v := hall a (List.mem_cons_self _ _)
    cases rest with
    | nil => simp [ha]
    | cons b bs =>
      rw [List.any_cons, ih (by simp) (fun w hw => hall w (List.mem_cons_of_mem _ hw)), ha,
        Bool.or_self]

theorem list_getLast?_const {l : List ℚ} {v : ℚ} (hne : l ≠ [])
    (hall : ∀ w ∈ l, w = v) : l.getLast? = some v := by
  induction l with
  | nil => exact absurd rfl hne
  | cons a rest ih =>
    have ha : a = v := hall a (List.mem_cons_self _ _)
    cases rest with
    | nil => simp [ha]
    | cons b bs =>
      rw [List.getLast?_cons_cons]
      exact ih (by simp) fun w hw => hall w (List.mem_cons_of_mem _ hw)

/-- C1: when the profile holds at least one eGFR measurement and every
parseable eGFR value of the profile is `v`, the kidney-function check
returns `reduced_function = (v < 60)` and `contrast_contraindicated =
(v < 30)` (both strict) with `egfr_value = v`; the boundary values
59/60/29/30 behave as stated; a profile with no parseable eGFR measurement
yields both flags false and a null value (and the check is a total
function — no exception). -/
theorem egfr_threshold_rules :
    (∀ (p : PatientInfo) (v : ℚ), egfrValues p ≠ [] → (∀ w ∈ egfrValues p, w = v) →
        checkKidneyFunction p =
          { reduced_function := decide (v < 60), egfr_value := some v,
            contrast_contraindicated := decide (v < 30) })
  ∧ (∀ p : PatientInfo, egfrValues p = [] →
        checkKidneyFunction p =
          { reduced_function := false, egfr_value := none,
            contrast_contraindicated := false })
  ∧ checkKidneyFunction (egfrProfile "59".toList) =
      { reduced_function := true, egfr_value := some 59, contrast_contraindicated := false }
  ∧ checkKidneyFunction (egfrProfile "60".toList) =
      { reduced_function := false, egfr_value := some 60, contrast_contraindicated := false }
  ∧ checkKidneyFunction (egfrProfile "29".toList) =
      { reduced_function := true, egfr_value := some 29, contrast_contraindicated := true }
  ∧ checkKidneyFunction (egfrProfile "30".toList) =
      { reduced_function := true, egfr_value := some 30, contrast_contraindicated := false } := by
  refine ⟨?_, ?_, by decide, by decide, by decide, by decide⟩
  · intro p v hne hall
    unfold checkKidneyFunction
    rw [foldl_kidneyStep]
    unfold egfrValues at hne hall
    rw [list_any_const hne hall, list_any_const hne hall,
      list_getLast?_const hne hall]
    rfl
  · intro p h
    unfold checkKidneyFunction
    rw [foldl_kidneyStep]
    unfold egfrValues at h
    rw [h]
    simp

/-- Witness for `egfr_threshold_rules`: the profile of the repository's own
example playbook (eGFR "45mL/min/1.73m2") parses to the single value 45 and
yields reduced function without contrast contraindication. -/
theorem egfr_threshold_rules_witness :
    egfrValues (egfrProfile "45mL/min/1.73m2".toList) = [45]
  ∧ checkKidneyFunction (egfrProfile "45mL/min/1.73m2".toList) =
      { reduced_function := true, egfr_value := some 45,
        contrast_contraindicated := false } := by
  refine ⟨by decide, ?_⟩
  have h := egfr_threshold_rules.1 (egfrProfile "45mL/min/1.73m2".toList) 45
    (by decide) (by decide)
  exact h.trans (by decide)

/-- C2 (counterexample): with two parseable eGFR measurements 45 then 70,
the check is NOT equivalent to seeing only the last measurement: it returns
`egfr_value = 70` but `reduced_function = true`, while the last measurement
alone yields `reduced_function = false`.  The flags are never reset, so they
accumulate over all measurements even though the value is overwritten. -/
theorem egfr_last_value_cex :
    checkKidneyFunction
      { measurements :=
          [{ entity_type := "measurement".toList, name := "eGFR".toList, value := some "45".toList },
           { entity_type := "measurement".toList, name := "eGFR".toList, value := some "70".toList }] } =
      { reduced_function := true, egfr_value := some 70, contrast_contraindicated := false }
  ∧ checkKidneyFunction
      { measurements :=
          [{ entity_type := "measurement".toList, name := "eGFR".toList, value := some "70".toList }] } =
      { reduced_function := false, egfr_value := some 70, contrast_contraindicated := false } := by
  exact ⟨by decide, by decide⟩

/-- C2 (amended): with two or more parseable eGFR measurements, the returned
`egfr_value` is the LAST parseable value in profile order, but the flags are
not computed from it alone: `reduced_function` holds iff SOME parseable eGFR
value is below 60 and `contrast_contraindicated` iff some value is below
30. -/
theorem egfr_flags_any_value (p : PatientInfo)
    (h : 2 ≤ (egfrValues p).length) :
    (checkKidneyFunction p).egfr_value = (egfrValues p).getLast?
  ∧ (checkKidneyFunction p).reduced_function =
      (egfrValues p).any (fun v => decide (v < 60))
  ∧ (checkKidneyFunction p).contrast_contraindicated =
      (egfrValues p).any (fun v => decide (v < 30)) := by
  unfold checkKidneyFunction
  rw [foldl_kidneyStep]
  unfold egfrValues
  refine ⟨?_, rfl, rfl⟩
  simp [Option.or_none]

/-- Witness for `egfr_flags_any_value` at the two-measurement profile
[45, 70]. -/
theorem egfr_flags_any_value_witness :
    (checkKidneyFunction
      { measurements :=
          [{ entity_type := "measurement".toList, name := "eGFR".toList, value := some "45".toList },
           { entity_type := "measurement".toList, name := "eGFR".toList, value := some "70".toList }] }).egfr_value
      = some 70 := by
  have h := (egfr_flags_any_value
    { measurements :=
        [{ entity_type := "measurement".toList, name := "eGFR".toList, value := some "45".toList },
         { entity_type := "measurement".toList, name := "eGFR".toList, value := some "70".toList }] }
    (by decide)).1
  exact h.trans (by decide)

/-! ## Result merger lemmas -/

/-- Closed form of the `.extend` loop: every field of the accumulated record
is the accumulator's field followed by the concatenation of the inputs'
fields in order. -/
theorem foldl_mergeStep (l : List ResearchFindings) (acc : ResearchFindings) :
    l.foldl mergeStep acc =
      { mri_protocols := acc.mri_protocols ++ (l.map (fun f => f.mri_protocols)).flatten
        field_strengths := acc.field_strengths ++ (l.map (fun f => f.field_strengths)).flatten
        sequences := acc.sequences ++ (l.map (fun f => f.sequences)).flatten
        conditions := acc.conditions ++ (l.map (fun f => f.conditions)).flatten
        special_considerations :=
          acc.special_considerations ++ (l.map (fun f => f.special_considerations)).flatten
        key_findings := acc.key_findings ++ (l.map (fun f => f.key_findings)).flatten } := by
  induction l generalizing acc with
  | nil => simp
  | cons f fs ih =>
    rw [List.foldl_cons, ih]
    simp [mergeStep, List.append_assoc]

theorem toFinset_dedup {α : Type} [DecidableEq α] (l : List α) :
    l.dedup.toFinset = l.toFinset := by
  ext a
  simp [List.mem_toFinset, List.mem_dedup]

/-- `toFinset` of a flattened list of lists is invariant under permutation of
the outer list. -/
theorem toFinset_flatten_perm {α : Type} [DecidableEq α]
    {L1 L2 : List (List α)} (h : L1.Perm L2) :
    L1.flatten.toFinset = L2.flatten.toFinset := by
  induction h with
  | nil => rfl
  | cons x _ ih => simp only [List.flatten_cons, List.toFinset_append, ih]
  | swap x y l =>
    simp only [List.flatten_cons, List.toFinset_append]
    rw [← Finset.union_assoc, ← Finset.union_assoc, Finset.union_comm y.toFinset x.toFinset]
  | trans _ _ ih1 ih2 => exact ih1.trans ih2

/-- Each field set of a merge is the `toFinset` of the concatenation of that
field over the inputs. -/
theorem mergeFindings_toFinset (l : List ResearchFindings) :
    (mergeFindings l).mri_protocols.toFinset = (l.map (fun f => f.mri_protocols)).flatten.toFinset
  ∧ (mergeFindings l).field_strengths.toFinset = (l.map (fun f => f.field_strengths)).flatten.toFinset
  ∧ (mergeFindings l).sequences.toFinset = (l.map (fun f => f.sequences)).flatten.toFinset
  ∧ (mergeFindings l).conditions.toFinset = (l.map (fun f => f.conditions)).flatten.toFinset
  ∧ (mergeFindings l).special_considerations.toFinset =
      (l.map (fun f => f.special_considerations)).flatten.toFinset
  ∧ (mergeFindings l).key_findings.toFinset = (l.map (fun f => f.key_findings)).flatten.toFinset := by
  unfold mergeFindings
  rw [foldl_mergeStep]
  refine ⟨by simp, ?_, ?_, ?_, by simp, ?_⟩ <;>
    simp [toFinset_dedup]

/-- C4: the merge of findings records is commutative and associative per
field up to set equality: merging any permutation of a list of records
yields the same per-field sets, and merging `[A, B]` then `C` yields the
same per-field sets as merging `A` then `[B, C]`. -/
theorem merge_perm_assoc_sets :
    (∀ l1 l2 : List ResearchFindings, l1.Perm l2 →
        sameFieldSets (mergeFindings l1) (mergeFindings l2))
  ∧ (∀ A B C : ResearchFindings,
        sameFieldSets (mergeFindings [mergeFindings [A, B], C])
          (mergeFindings [A, mergeFindings [B, C]])) := by
  constructor
  · intro l1 l2 h
    obtain ⟨a1, b1, c1, d1, e1, f1⟩ := mergeFindings_toFinset l1
    obtain ⟨a2, b2, c2, d2, e2, f2⟩ := mergeFindings_toFinset l2
    exact ⟨a1.trans ((toFinset_flatten_perm (h.map _)).trans a2.symm),
           b1.trans ((toFinset_flatten_perm (h.map _)).trans b2.symm),
           c1.trans ((toFinset_flatten_perm (h.map _)).trans c2.symm),
           d1.trans ((toFinset_flatten_perm (h.map _)).trans d2.symm),
           e1.trans ((toFinset_flatten_perm (h.map _)).trans e2.symm),
           f1.trans ((toFinset_flatten_perm (h.map _)).trans f2.symm)⟩
  · intro A B C
    obtain ⟨aL, bL, cL, dL, eL, fL⟩ :=
      mergeFindings_toFinset [mergeFindings [A, B], C]
    obtain ⟨aR, bR, cR, dR, eR, fR⟩ :=
      mergeFindings_toFinset [A, mergeFindings [B, C]]
    obtain ⟨aI, bI, cI, dI, eI, fI⟩ := mergeFindings_toFinset [A, B]
    obtain ⟨aJ, bJ, cJ, dJ, eJ, fJ⟩ := mergeFindings_toFinset [B, C]
    refine ⟨?_, ?_, ?_, ?_, ?_, ?_⟩ <;>
    · first
      | (rw [aL, aR]; simp [List.toFinset_append, aI, aJ, Finset.union_assoc])
      | (rw [bL, bR]; simp [List.toFinset_append, bI, bJ, Finset.union_assoc])
      | (rw [cL, cR]; simp [List.toFinset_append, cI, cJ, Finset.union_assoc])
      | (rw [dL, dR]; simp [List.toFinset_append, dI, dJ, Finset.union_assoc])
      | (rw [eL, eR]; simp [List.toFinset_append, eI, eJ, Finset.union_assoc])
      | (rw [fL, fR]; simp [List.toFinset_append, fI, fJ, Finset.union_assoc])

/-- Witness for `merge_perm_assoc_sets`: swapping two one-field records
yields the same per-field sets. -/
theorem merge_perm_assoc_sets_witness :
    sameFieldSets
      (mergeFindings [{ field_strengths := ["1.5T".toList] }, { field_strengths := ["3T".toList] }])
      (mergeFindings [{ field_strengths := ["3T".toList] }, { field_strengths := ["1.5T".toList] }]) :=
  merge_perm_assoc_sets.1 _ _ (List.Perm.swap _ _ _)

/-- C10: in a merged findings record the four deduplicated fields
(`field_strengths`, `sequences`, `conditions`, `key_findings`) contain no
duplicates, while `mri_protocols` and `special_considerations` are exactly
the in-order concatenation of the corresponding input lists (never
deduplicated, so duplicates survive). -/
theorem merge_dedup_concat_fields (l : List ResearchFindings) :
    (mergeFindings l).field_strengths.Nodup
  ∧ (mergeFindings l).sequences.Nodup
  ∧ (mergeFindings l).conditions.Nodup
  ∧ (mergeFindings l).key_findings.Nodup
  ∧ (mergeFindings l).mri_protocols = (l.map (fun f => f.mri_protocols)).flatten
  ∧ (mergeFindings l).special_considerations =
      (l.map (fun f => f.special_considerations)).flatten := by
  unfold mergeFindings
  rw [foldl_mergeStep]
  exact ⟨by simp [List.nodup_dedup], by simp [List.nodup_dedup],
         by simp [List.nodup_dedup], by simp [List.nodup_dedup], by simp, by simp⟩

/-! ## Source resolution theorems -/

/-- C5 (counterexample): an input that is neither an absolute URL nor an
existing file is NOT treated as inline text — `process_input` raises
`ValueError` for it. -/
theorem process_input_raises_cex :
    processInput (fun _ => false) "just some plain patient notes".toList =
      Except.error
        ("Input source not found or not supported: just some plain patient notes".toList) := by
  rfl

/-- C5 (amended): `process_input` dispatches an absolute URL (nonempty
scheme and nonempty netloc under `urlparse`) to the URL fetcher and an
existing path to PDF extraction or text reading; every OTHER input raises
`ValueError` — inline text is never processed. -/
theorem process_input_classification (isfile : Str → Bool) (src : Str) :
    ((urlSchemeNetloc src).1 ≠ [] → (urlSchemeNetloc src).2 ≠ [] →
        processInput isfile src = .ok .urlFetch)
  ∧ (((urlSchemeNetloc src).1 = [] ∨ (urlSchemeNetloc src).2 = []) →
      isfile src = true →
        processInput isfile src =
          (if endsWithCh ".pdf".toList (asciiLower src) then .ok .pdfExtract
           else .ok .textRead))
  ∧ (((urlSchemeNetloc src).1 = [] ∨ (urlSchemeNetloc src).2 = []) →
      isfile src = false →
        processInput isfile src =
          .error ("Input source not found or not supported: ".toList ++ src)) := by
  refine ⟨?_, ?_, ?_⟩
  · intro h1 h2
    unfold processInput
    rcases hu : urlSchemeNetloc src with ⟨sch, nl⟩
    rw [hu] at h1 h2
    simp only at h1 h2
    simp [List.isEmpty_iff, h1, h2]
  · intro h hfile
    unfold processInput
    rcases hu : urlSchemeNetloc src with ⟨sch, nl⟩
    rw [hu] at h
    simp only at h
    have hcond : ¬((!sch.isEmpty && !nl.isEmpty) = true) := by
      rcases h with h | h <;> simp [List.isEmpty_iff, h]
    simp [hcond, hfile]
  · intro h hfile
    unfold processInput
    rcases hu : urlSchemeNetloc src with ⟨sch, nl⟩
    rw [hu] at h
    simp only at h
    have hcond : ¬((!sch.isEmpty && !nl.isEmpty) = true) := by
      rcases h with h | h <;> simp [List.isEmpty_iff, h]
    simp [hcond, hfile]

/-- Witness for `process_input_classification`: a URL goes to the fetcher
even when the filesystem has no such file; a plain string errors. -/
theorem process_input_classification_witness :
    processInput (fun _ => false) "https://example.com/paper.pdf".toList =
      .ok .urlFetch
  ∧ processInput (fun _ => false) "notes about the patient".toList =
      .error ("Input source not found or not supported: notes about the patient".toList) :=
  ⟨(process_input_classification _ _).1 (by decide) (by decide),
   (process_input_classification _ _).2.2 (by decide) rfl⟩

/-! ## Extraction fallback theorems -/

/-- C6: the extraction chain tries PyPDF2, pdfplumber, then pdftotext; after
each method the next runs if and only if the stripped text so far is shorter
than 100 characters; the chain stops at the first sufficient result and
otherwise returns what the last method left behind (possibly empty); in
particular two under-threshold methods always reach the third.  The full
extractor returns the preprocessed chain result. -/
theorem extraction_fallback_chain :
    (∀ (t1 t2 : Str) (m3 : Option Str),
        100 ≤ (pyStrip t1).length → extractChain t1 t2 m3 = t1)
  ∧ (∀ (t1 t2 : Str) (m3 : Option Str),
        (pyStrip t1).length < 100 → 100 ≤ (pyStrip t2).length →
        extractChain t1 t2 m3 = t2)
  ∧ (∀ t1 t2 t3 : Str,
        (pyStrip t1).length < 100 → (pyStrip t2).length < 100 →
        extractChain t1 t2 (some t3) = t3)
  ∧ (∀ t1 t2 : Str,
        (pyStrip t1).length < 100 → (pyStrip t2).length < 100 →
        extractChain t1 t2 none = t2)
  ∧ (∀ (t1 t2 : Str) (m3 : Option Str),
        extractTextFromPdf t1 t2 m3 = preprocessText (extractChain t1 t2 m3)) := by
  refine ⟨?_, ?_, ?_, ?_, fun _ _ _ => rfl⟩
  · intro t1 t2 m3 h
    have hn : ¬((pyStrip t1).length < 100) := by omega
    show (if (pyStrip (if (pyStrip t1).length < 100 then t2 else t1)).length < 100
          then m3.getD (if (pyStrip t1).length < 100 then t2 else t1)
          else (if (pyStrip t1).length < 100 then t2 else t1)) = t1
    rw [if_neg hn, if_neg hn]
  · intro t1 t2 m3 h1 h2
    show (if (pyStrip (if (pyStrip t1).length < 100 then t2 else t1)).length < 100
          then m3.getD (if (pyStrip t1).length < 100 then t2 else t1)
          else (if (pyStrip t1).length < 100 then t2 else t1)) = t2
    rw [if_pos h1, if_neg (by omega)]
  · intro t1 t2 t3 h1 h2
    show (if (pyStrip (if (pyStrip t1).length < 100 then t2 else t1)).length < 100
          then (some t3).getD (if (pyStrip t1).length < 100 then t2 else t1)
          else (if (pyStrip t1).length < 100 then t2 else t1)) = t3
    rw [if_pos h1, if_pos h2]
    rfl
  · intro t1 t2 h1 h2
    show (if (pyStrip (if (pyStrip t1).length < 100 then t2 else t1)).length < 100
          then (none : Option Str).getD (if (pyStrip t1).length < 100 then t2 else t1)
          else (if (pyStrip t1).length < 100 then t2 else t1)) = t2
    rw [if_pos h1, if_pos h2]
    rfl

set_option maxRecDepth 8192 in
/-- Witness for `extraction_fallback_chain`: a 100-character first result is
kept; two short results fall through to pdftotext. -/
theorem extraction_fallback_chain_witness :
    extractChain (List.replicate 100 'a') "short".toList none = List.replicate 100 'a'
  ∧ extractChain "tiny".toList "short".toList (some "from pdftotext".toList) =
      "from pdftotext".toList :=
  ⟨extraction_fallback_chain.1 _ _ _ (by decide),
   extraction_fallback_chain.2.2.1 _ _ _ (by decide) (by decide)⟩

/-! ## Synthesis fallback theorems -/

/-- C7: when the parse of the synthesis response fails, the generator
returns (never raises) the fixed conservative fallback: sequences
T1-weighted and T2-weighted at 1.5T, with rationale and special
considerations both mentioning the error. -/
theorem synthesis_parse_fallback
    (parse : Str → Except Str ProtocolRecommendation) (result e : Str)
    (h : parse result = .error e) :
    parseOrFallback parse result = fallbackRecommendation
  ∧ fallbackRecommendation.sequences = ["T1-weighted".toList, "T2-weighted".toList]
  ∧ fallbackRecommendation.field_strength = "1.5T".toList
  ∧ hasSubstr "error".toList (asciiLower fallbackRecommendation.rationale) = true
  ∧ fallbackRecommendation.special_considerations.any
      (fun s => hasSubstr "error".toList (asciiLower s)) = true := by
  refine ⟨?_, rfl, rfl, by decide, by decide⟩
  unfold parseOrFallback
  rw [h]

/-- Witness for `synthesis_parse_fallback` at an always-failing parser. -/
theorem synthesis_parse_fallback_witness :
    parseOrFallback (fun _ => .error "malformed".toList) "not json".toList =
      fallbackRecommendation :=
  (synthesis_parse_fallback (fun _ => .error "malformed".toList)
    "not json".toList "malformed".toList rfl).1

/-! ## Remote fetch theorems -/

/-- C8: `fetch_url_content` never raises: a failing request, a bad status,
an exception in the PDF branch, or an exception in the HTML branch each
yield the empty string. -/
theorem fetch_url_failure_empty :
    (∀ (p h : Option Str) (url : Str), fetchUrlContent ⟨none, p, h⟩ url = [])
  ∧ (∀ (r : HttpResponse) (p h : Option Str) (url : Str), r.statusOk = false →
        fetchUrlContent ⟨some r, p, h⟩ url = [])
  ∧ (∀ (r : HttpResponse) (h : Option Str) (url : Str), r.statusOk = true →
        (hasSubstr "application/pdf".toList (asciiLower r.contentType)
          || endsWithCh ".pdf".toList (asciiLower url)) = true →
        fetchUrlContent ⟨some r, none, h⟩ url = [])
  ∧ (∀ (r : HttpResponse) (p : Option Str) (url : Str), r.statusOk = true →
        (hasSubstr "application/pdf".toList (asciiLower r.contentType)
          || endsWithCh ".pdf".toList (asciiLower url)) = false →
        fetchUrlContent ⟨some r, p, none⟩ url = []) := by
  refine ⟨fun _ _ _ => rfl, ?_, ?_, ?_⟩
  · intro r p h url hst
    simp [fetchUrlContent, hst]
  · intro r h url hst hpdf
    simp only [fetchUrlContent]
    rw [if_neg (by simp [hst]), if_pos hpdf]
  · intro r p url hst hpdf
    simp only [fetchUrlContent]
    rw [if_neg (by simp [hst]), if_neg (by rw [hpdf]; simp)]

/-- Witness for `fetch_url_failure_empty`: a 404-style response yields the
empty string. -/
theorem fetch_url_failure_empty_witness :
    fetchUrlContent ⟨some ⟨false, [], []⟩, none, none⟩ "https://example.com/x".toList = [] :=
  fetch_url_failure_empty.2.1 _ _ _ _ rfl

/-- Witness for `preprocess_idempotent_ascii` on a plain ASCII text. -/
theorem preprocess_idempotent_ascii_witness :
    (∀ c ∈ ("Patient is a 58 year old male.\n\nAssess for fibrosis.".toList : Str),
        isNonAscii c = false)
  ∧ '[' ∉ ("Patient is a 58 year old male.\n\nAssess for fibrosis.".toList : Str)
  ∧ preprocessText (preprocessText "Patient is a 58 year old male.\n\nAssess for fibrosis.".toList)
      = preprocessText "Patient is a 58 year old male.\n\nAssess for fibrosis.".toList :=
  ⟨by decide, by decide, preprocess_idempotent_ascii _ (by decide) (by decide)⟩

/-! ## Section segmentation theorems -/

/-- Inserting a fresh key appends. -/
theorem dictInsert_of_not_mem {k v : Str} :
    ∀ {d : List (Str × Str)}, k ∉ d.map Prod.fst →
      dictInsert k v d = d ++ [(k, v)] := by
  intro d
  induction d with
  | nil => intro _; rfl
  | cons p rest ih =>
    intro h
    obtain ⟨k0, v0⟩ := p
    have hk : k0 ≠ k := by
      intro hEq
      exact h (by simp [hEq])
    simp only [dictInsert, hk, if_neg, not_false_iff, List.cons_append]
    exact congrArg _ (ih fun hm => h (by simp [hm]))

/-- Folding `dictInsert` over pairs with fresh, pairwise distinct keys just
appends the pairs in order. -/
theorem foldl_dictInsert_of_nodup :
    ∀ (kvs d : List (Str × Str)), (kvs.map Prod.fst).Nodup →
      (∀ k ∈ kvs.map Prod.fst, k ∉ d.map Prod.fst) →
      kvs.foldl (fun d kv => dictInsert kv.1 kv.2 d) d = d ++ kvs := by
  intro kvs
  induction kvs with
  | nil => intro d _ _; simp
  | cons kv rest ih =>
    intro d hnd hdisj
    obtain ⟨k, v⟩ := kv
    have hnd2 : k ∉ rest.map Prod.fst ∧ (rest.map Prod.fst).Nodup := by
      rw [List.map_cons] at hnd
      exact List.nodup_cons.mp hnd
    rw [List.foldl_cons]
    have hins : dictInsert k v d = d ++ [(k, v)] :=
      dictInsert_of_not_mem (hdisj k (by simp))
    rw [hins, ih (d ++ [(k, v)]) hnd2.2 ?_, List.append_assoc]
    · rfl
    · intro k2 hk2 hmem
      simp only [List.map_append, List.mem_append] at hmem
      rcases hmem with hmem | hmem
      · exact hdisj k2 (by simp [hk2]) hmem
      · have hk2k : k2 = k := by simpa using hmem
        subst hk2k
        exact hnd2.1 hk2

/-- The enumerated loop of `extract_sections` computes exactly the fold of
`dictInsert` over the per-match sections described by the claim. -/
theorem sectionsLoop_eq_spec (text : Str) :
    ∀ (ms : List (Nat × Str × Nat)) (d : List (Str × Str)),
      sectionsLoop text ms d =
        (specSections text ms).foldl (fun d kv => dictInsert kv.1 kv.2 d) d := by
  intro ms
  induction ms with
  | nil => intro d; rfl
  | cons m rest ih =>
    intro d
    obtain ⟨st, nm, ln⟩ := m
    cases rest with
    | nil => simp [sectionsLoop, specSections, sliceTo]
    | cons m2 rest2 =>
      obtain ⟨st2, nm2, ln2⟩ := m2
      simp only [sectionsLoop, specSections, sliceTo, List.head?_cons, Option.map_some]
      exact ih _

theorem specSections_keys (text : Str) :
    ∀ ms : List (Nat × Str × Nat),
      (specSections text ms).map Prod.fst = ms.map (fun m => m.2.1) := by
  intro ms
  induction ms with
  | nil => rfl
  | cons m rest ih =>
    obtain ⟨st, nm, ln⟩ := m
    simp [specSections, ih]

/-- C9: section extraction partitions the text between consecutive heading
matches: with distinct heading names the result maps each lowered heading
name to the stripped text running from the end of its heading match to the
start of the next match (the last running to the end of the text), content
before the first heading appearing nowhere; when the text contains no
heading match the result is exactly `full_text` mapped to the whole input.
The spec's three-heading example produces exactly the three bounded
sections. -/
theorem extract_sections_spec :
    (∀ text : Str, findHeadingMatches text = [] →
        extractSections text = [("full_text".toList, text)])
  ∧ (∀ (text : Str) (ms : List (Nat × Str × Nat)),
        findHeadingMatches text = ms → ms ≠ [] →
        (ms.map (fun m => m.2.1)).Nodup →
        extractSections text = specSections text ms)
  ∧ extractSections
      "Abstract\nA text about things.\nMethods\nWe did stuff.\nResults\nIt worked.".toList =
      [("abstract".toList, "A text about things.".toList),
       ("methods".toList, "We did stuff.".toList),
       ("results".toList, "It worked.".toList)] := by
  refine ⟨?_, ?_, by decide⟩
  · intro text h
    unfold extractSections
    rw [h]
    rfl
  · intro text ms hms hne hnd
    unfold extractSections
    rw [hms, sectionsLoop_eq_spec,
      foldl_dictInsert_of_nodup _ [] (by rw [specSections_keys]; exact hnd) (by simp)]
    simp only [List.nil_append]
    rw [if_neg]
    simp only [List.isEmpty_iff]
    cases ms with
    | nil => exact absurd rfl hne
    | cons m rest =>
      obtain ⟨st, nm, ln⟩ := m
      simp [specSections]

/-- Witness for `extract_sections_spec`: a text with no heading yields the
synthetic `full_text` section, and the three-heading text satisfies the
general bounding statement. -/
theorem extract_sections_spec_witness :
    extractSections "no headings here at all".toList =
      [("full_text".toList, "no headings here at all".toList)] :=
  extract_sections_spec.1 _ (by decide)

end SmartMRI
